import Mathlib

/-!
Shallow embedding of `docs/build.py`, a static-site build script.

Page texts are modelled as `List Char`.  The Python regular expressions used
by `parse_page` are translated into explicit first-occurrence searches, and
`str.replace` is translated into a leftmost, non-overlapping replacement
function.  The build loop is modelled as a pure function from the layout text
and the listing of the pages directory to the list of written files together
with the process exit code.
-/

namespace Docs

abbrev Str := List Char

/-- Whitespace characters as matched by the regex class and by `str.strip`
(restricted to the ASCII range, which is all that the claims exercise). -/
def isSpace (c : Char) : Bool :=
  c = ' ' || c = '\t' || c = '\n' || c = '\r' || c = '\x0b' || c = '\x0c'

def lstrip (s : Str) : Str := s.dropWhile isSpace

def rstrip (s : Str) : Str := (s.reverse.dropWhile isSpace).reverse

/-- Model of Python `str.strip()`. -/
def strip (s : Str) : Str := rstrip (lstrip s)

/-- Index of the first occurrence of `pat` in `s` (the semantics of a lazy
regex group, and of `str.find`). -/
def findFirst : Str → Str → Option Nat
  | [], pat => if pat.isPrefixOf [] then some 0 else none
  | c :: t, pat =>
    if pat.isPrefixOf (c :: t) then some 0
    else (findFirst t pat).map (fun i => i + 1)

/-- One step of Python `str.replace`: scan left to right, replace each
leftmost non-overlapping occurrence of `p :: ps` by `repl`.  The `Nat`
argument is fuel, which is always at least the length of the scanned list,
so the fuel never runs out; it only makes the recursion structural. -/
def replaceGo (p : Char) (ps repl : Str) : Nat → Str → Str
  | 0, s => s
  | _ + 1, [] => []
  | fuel + 1, c :: t =>
    if (p :: ps).isPrefixOf (c :: t) then
      repl ++ replaceGo p ps repl fuel (t.drop ps.length)
    else
      c :: replaceGo p ps repl fuel t

/-- Model of Python `str.replace(pat, repl)` (all occurrences, leftmost,
non-overlapping).  For an empty pattern, Python inserts `repl` before every
character and at the end. -/
def replaceAll (s pat repl : Str) : Str :=
  match pat with
  | [] => repl ++ s.flatMap (fun c => c :: repl)
  | p :: ps => replaceGo p ps repl s.length s

/-- Model of `re.match(r'^---\n(.*?)\n---\n(.*)$', content, re.DOTALL)`:
the content must start with the opening marker line, and the lazy first
group ends at the first occurrence of a newline followed by the closing
marker line. -/
def splitFront (c : Str) : Option (Str × Str) :=
  if "---\n".data.isPrefixOf c then
    match findFirst (c.drop 4) "\n---\n".data with
    | some i => some ((c.drop 4).take i, (c.drop 4).drop (i + 5))
    | none => none
  else none

/-- Model of `line.partition(':')` followed by stripping key and value. -/
def parseMetaLine (line : Str) : Str × Str :=
  match findFirst line [':'] with
  | some i => (strip (line.take i), strip (line.drop (i + 1)))
  | none => (strip line, [])

/-- Model of the metadata loop: `m.group(1).strip().split('\n')`, each line
partitioned at the first colon and inserted into the dict.  The association
list is built in reverse so that a lookup finds the latest binding, matching
Python dict overwrite semantics. -/
def parseMeta (g1 : Str) : List (Str × Str) :=
  ((strip g1).splitOn '\n').foldl (fun acc line => parseMetaLine line :: acc) []

/-- Model of `re.match(r'\s*<style>(.*?)</style>\s*(.*)', rest, re.DOTALL)`:
returns (page css, remaining content). -/
def extractStyle (rest : Str) : Str × Str :=
  let r1 := lstrip rest
  if "<style>".data.isPrefixOf r1 then
    let r2 := r1.drop 7
    match findFirst r2 "</style>".data with
    | some i => (r2.take i, lstrip (r2.drop (i + 8)))
    | none => ([], rest)
  else ([], rest)

/-- First index `j` in the scanned list at which `<script>` starts, subject
to the regex requirement that a closing `</script>` followed by trailing
whitespace fits after it: `j + 8 ≤ bound - 9` where `bound` is the length of
the content with trailing whitespace removed.  The second argument is the
index offset of the scanned suffix inside the full content. -/
def scanScript (bound : Nat) : Str → Nat → Option Nat
  | [], _ => none
  | c :: t, k =>
    if "<script>".data.isPrefixOf (c :: t) && k + 17 ≤ bound then some k
    else scanScript bound t (k + 1)

/-- Length of the run of trailing whitespace of `s`. -/
def trailWs (s : Str) : Nat := (s.reverse.takeWhile isSpace).length

/-- Model of `re.search(r'(\s*<script>.*</script>\s*)$', rest, re.DOTALL)`:
returns (page js, remaining content).  The leftmost match starts at the
first `<script>` occurrence (that a closing tag can follow), extended left
over the immediately preceding whitespace run; the captured group runs to
the end of the content. -/
def extractScript (rest : Str) : Str × Str :=
  let rt := rstrip rest
  if "</script>".data.isSuffixOf rt then
    match scanScript rt.length rest 0 with
    | some j =>
      let i := j - trailWs (rest.take j)
      (rest.drop i, rest.take i)
    | none => ([], rest)
  else ([], rest)

/-- Result of `parse_page`: metadata mapping, page CSS (tags stripped),
body (whitespace-stripped), page JS (tags retained). -/
structure PageParts where
  meta : List (Str × Str)
  css : Str
  body : Str
  js : Str
deriving DecidableEq, Repr

/-- Model of `parse_page`.  `none` models the raised `ValueError` for a
page missing the frontmatter markers. -/
def parse_page (content : Str) : Option PageParts :=
  match splitFront content with
  | none => none
  | some (g1, g2) =>
    let meta := parseMeta g1
    let sm := extractStyle g2
    let jm := extractScript sm.2
    some ⟨meta, sm.1, strip jm.2, jm.1⟩

/-- Python `dict.get` over the reversed association list built by
`parseMeta`. -/
def metaGet (meta : List (Str × Str)) (k : Str) : Option Str :=
  match meta with
  | [] => none
  | kv :: rest => if kv.1 = k then some kv.2 else metaGet rest k

/-- Python `dict.get(k, d)`. -/
def metaGetD (meta : List (Str × Str)) (k d : Str) : Str :=
  (metaGet meta k).getD d

/-- The `nav_keys` list of `build`. -/
def navKeys : List Str :=
  ["index".data, "config".data, "channels".data, "tools".data,
   "workspace".data, "deploy".data, "cli".data]

/-- The active-marker string `'class="active"'`. -/
def activeAttr : Str := "class=\"active\"".data

/-- Model of `str.upper()` on ASCII keys. -/
def upperStr (s : Str) : Str := s.map Char.toUpper

/-- The navigation placeholder token for a key. -/
def navPh (key : Str) : Str :=
  "\x7b\x7bNAV_".data ++ upperStr key ++ "\x7d\x7d".data

/-- The replacement value computed for one navigation key. -/
def navVal (active key : Str) : Str :=
  if key = active then activeAttr else []

/-- Model of the substitution chain of `build`: the six fixed placeholder
replacements followed by the navigation replacements, in source order. -/
def render (layout : Str) (p : PageParts) : Str :=
  let active := metaGetD p.meta "active".data []
  let h1 := replaceAll layout "\x7b\x7bTITLE\x7d\x7d".data
    (metaGetD p.meta "title".data "oxicrab".data)
  let h2 := replaceAll h1 "\x7b\x7bDESCRIPTION\x7d\x7d".data
    (metaGetD p.meta "description".data [])
  let h3 := replaceAll h2 "\x7b\x7bMAX_WIDTH\x7d\x7d".data
    (metaGetD p.meta "max_width".data "820px".data)
  let h4 := replaceAll h3 "\x7b\x7bPAGE_CSS\x7d\x7d".data p.css
  let h5 := replaceAll h4 "\x7b\x7bBODY\x7d\x7d".data p.body
  let h6 := replaceAll h5 "\x7b\x7bPAGE_JS\x7d\x7d".data p.js
  navKeys.foldl (fun acc key => replaceAll acc (navPh key) (navVal active key)) h6

/-- Result of a build run: the output files written, in order, and the
process exit code (0 success, 1 for `sys.exit(1)` or an uncaught
`ValueError`). -/
structure BuildResult where
  written : List (Str × Str)
  exitCode : Nat
deriving DecidableEq, Repr

/-- Lexicographic (code-point) strict comparison, as used by Python string
sorting. -/
def lexLt : Str → Str → Bool
  | [], [] => false
  | [], _ :: _ => true
  | _ :: _, [] => false
  | a :: as, b :: bs => a < b || (a = b && lexLt as bs)

/-- Stable insertion into an ascending list, keyed by file name. -/
def insertSorted (x : Str × Str) : List (Str × Str) → List (Str × Str)
  | [] => [x]
  | y :: ys => if lexLt x.1 y.1 then x :: y :: ys else y :: insertSorted x ys

/-- Model of `sorted(...)` over (file name, file content) pairs. -/
def sortPages (l : List (Str × Str)) : List (Str × Str) :=
  l.foldr insertSorted []

/-- The per-page loop of `build`: parse each page, render it, write the
output under the page's own file name.  A parse failure aborts the loop with
no further writes and exit code 1 (the uncaught `ValueError`). -/
def buildLoop (layout : Str) : List (Str × Str) → BuildResult
  | [] => ⟨[], 0⟩
  | f :: rest =>
    match parse_page f.2 with
    | none => ⟨[], 1⟩
    | some p =>
      let out := render layout p
      let r := buildLoop layout rest
      ⟨(f.1, out) :: r.written, r.exitCode⟩

/-- Model of `build()`: filter the directory listing to `.html` files, sort
by name, exit 1 with no writes when no page is found, otherwise run the
page loop. -/
def build (layout : Str) (files : List (Str × Str)) : BuildResult :=
  let pages := sortPages (files.filter (fun f => ".html".data.isSuffixOf f.1))
  if pages.isEmpty then ⟨[], 1⟩
  else buildLoop layout pages

/-- Default page value used to discharge `Option` in statements about pages
already known to parse. -/
def noPage : PageParts := ⟨[], [], [], []⟩

/-! Analysis layer: a layout that keeps braces inside placeholder tokens is
viewed as an interleaving of brace-free chunks and tokens, and the
substitution chain of `render` is proved to act item-wise on that view. -/

/-- One piece of a layout: a literal chunk or a placeholder token with the
given name. -/
inductive Item where
  | chunk : Str → Item
  | tok : Str → Item
deriving DecidableEq, Repr

/-- The text of the placeholder token named `n`. -/
def tokStr (n : Str) : Str := '\x7b' :: '\x7b' :: (n ++ ['\x7d', '\x7d'])

/-- The text of an interleaving of chunks and tokens. -/
def flatten : List Item → Str
  | [] => []
  | Item.chunk c :: rest => c ++ flatten rest
  | Item.tok n :: rest => tokStr n ++ flatten rest

/-- Whether a string contains no brace character. -/
def braceFree (s : Str) : Bool :=
  s.all (fun c => c ≠ '\x7b' && c ≠ '\x7d')

/-- A well-formed item: chunks are brace-free, token names are brace-free
and nonempty. -/
def goodItem : Item → Bool
  | Item.chunk c => braceFree c
  | Item.tok n => braceFree n && !n.isEmpty

def goodItems (l : List Item) : Bool := l.all goodItem

/-- Whether the interleaving contains a token named `n`. -/
def hasTok (n : Str) (l : List Item) : Bool :=
  l.any (fun it => it = Item.tok n)

/-- Substitute the value `v` for every token named `n`. -/
def substTok (n v : Str) (l : List Item) : List Item :=
  l.map (fun it => if it = Item.tok n then Item.chunk v else it)

/-- Apply a list of (token name, value) substitutions in order. -/
def applySubs (subs : List (Str × Str)) (l : List Item) : List Item :=
  subs.foldl (fun acc nv => substTok nv.1 nv.2 acc) l

/-- The same substitutions applied as textual replacement passes. -/
def renderSubs (subs : List (Str × Str)) (s : Str) : Str :=
  subs.foldl (fun acc nv => replaceAll acc (tokStr nv.1) nv.2) s

/-- The placeholder substitution list of `build` for one parsed page, in
source order. -/
def pageSubs (p : PageParts) : List (Str × Str) :=
  [("TITLE".data, metaGetD p.meta "title".data "oxicrab".data),
   ("DESCRIPTION".data, metaGetD p.meta "description".data []),
   ("MAX_WIDTH".data, metaGetD p.meta "max_width".data "820px".data),
   ("PAGE_CSS".data, p.css),
   ("BODY".data, p.body),
   ("PAGE_JS".data, p.js)]
  ++ navKeys.map (fun k =>
      ("NAV_".data ++ upperStr k, navVal (metaGetD p.meta "active".data []) k))

/-- First value bound to a token name in a substitution list. -/
def subsLookup : List (Str × Str) → Str → Option Str
  | [], _ => none
  | nv :: rest, n => if nv.1 = n then some nv.2 else subsLookup rest n

/-- Item-wise effect of a substitution list. -/
def resolveFun (subs : List (Str × Str)) (it : Item) : Item :=
  match it with
  | Item.chunk c => Item.chunk c
  | Item.tok n =>
    match subsLookup subs n with
    | some v => Item.chunk v
    | none => Item.tok n

/-- The recognized placeholder names of the build script. -/
def recognizedNames : List Str :=
  ["TITLE".data, "DESCRIPTION".data, "MAX_WIDTH".data,
   "PAGE_CSS".data, "BODY".data, "PAGE_JS".data]
  ++ navKeys.map (fun k => "NAV_".data ++ upperStr k)

/-- A pattern has no nontrivial border: no proper nonempty prefix of it is
also a suffix.  This rules out occurrences of the pattern straddling the
boundary between a pattern-free region and a literal occurrence. -/
def BorderFree (pat : Str) : Prop :=
  ∀ k, k < pat.length → 0 < k → pat.take k ≠ pat.drop (pat.length - k)

/-- Rendering of one page source through parse and substitution (the body of
the per-page loop, for a page already known to parse). -/
def renderFile (layout : Str) (src : Str) : Str :=
  render layout ((parse_page src).getD noPage)

/-! Concrete inputs used to instantiate and to refute the individual
claims. -/

def c1Src : Str := "---\nmax-width: 900px\n---\n<p>b</p>\n".data

def c1Layout : Str := "\x7b\x7bMAX_WIDTH\x7d\x7d".data

def c1Items : List Item :=
  [Item.tok "MAX_WIDTH".data, Item.chunk " wide".data]

def c1Page : PageParts := ⟨[("max_width".data, "900px".data)], [], [], []⟩

def c2Src : Str :=
  "---\ntitle: Config\nactive: config\n---\n<style>.x\x7bcolor:red\x7d</style>\n<p>Hello</p>\n<script>console.log(1)</script>\n".data

def c2Layout : Str :=
  "<title>\x7b\x7bTITLE\x7d\x7d</title>|\x7b\x7bDESCRIPTION\x7d\x7d|\x7b\x7bMAX_WIDTH\x7d\x7d|\x7b\x7bPAGE_CSS\x7d\x7d|\x7b\x7bBODY\x7d\x7d|\x7b\x7bPAGE_JS\x7d\x7d|\x7b\x7bNAV_INDEX\x7d\x7d|\x7b\x7bNAV_CONFIG\x7d\x7d|\x7b\x7bNAV_CHANNELS\x7d\x7d|\x7b\x7bNAV_TOOLS\x7d\x7d|\x7b\x7bNAV_WORKSPACE\x7d\x7d|\x7b\x7bNAV_DEPLOY\x7d\x7d|\x7b\x7bNAV_CLI\x7d\x7d".data

def c4Src : Str := "---\nt: x\n---\n\x7b\x7bTITLE\x7d\x7d\n".data

def c4Layout : Str := "\x7b\x7bTITLE\x7d\x7d \x7b\x7bBODY\x7d\x7d".data

def c4Items : List Item :=
  [Item.chunk "<h1>".data, Item.tok "TITLE".data, Item.chunk "</h1>".data,
   Item.tok "UNKNOWN".data]

def c4Page : PageParts := ⟨[("title".data, "Hi".data)], [], "body".data, []⟩

def c5Layout : Str := "\x7b\x7bBODY\x7d\x7d".data

def c5Files : List (Str × Str) :=
  [("b.html".data, "---\nt: 1\n---\nB\n".data),
   ("c.html".data, "no frontmatter".data),
   ("a.html".data, "---\nt: 1\n---\nA\n".data)]

def c6Files : List (Str × Str) :=
  [("notes.txt".data, "junk".data), ("style.css".data, "x: y".data)]

def c7Src : Str := "---\na: b\n---\nhello".data

def c8Files : List (Str × Str) :=
  [("b.html".data, "---\ntitle: B\n---\n<p>B</p>\n".data),
   ("a.html".data, "---\ntitle: A\n---\n<p>A</p>\n".data),
   ("readme.md".data, "not a page".data)]

def c9Src : Str := "---\nkey: val\n---\nbody\n".data

def c10Body : Str := "<p>x</p>\n".data

def c10A : Str := "console.log(1)".data

def c10Mid : Str := "\n<p>between</p>\n".data

def c10B : Str := "console.log(2)".data

/-! Lemmas: first-occurrence search. -/

theorem findFirst_some {s pat : Str} {i : Nat} (h : findFirst s pat = some i) :
    pat <+: s.drop i := by
  induction s generalizing i with
  | nil =>
    rw [findFirst] at h
    split at h
    · cases h
      simp only [List.drop_nil]
      exact List.isPrefixOf_iff_prefix.mp (by assumption)
    · cases h
  | cons c t ih =>
    rw [findFirst] at h
    split at h
    · cases h
      simpa using List.isPrefixOf_iff_prefix.mp (by assumption)
    · rw [Option.map_eq_some'] at h
      obtain ⟨i', hi', rfl⟩ := h
      simpa using ih hi'

theorem findFirst_decomp {s pat : Str} {i : Nat} (h : findFirst s pat = some i) :
    ∃ t, s = s.take i ++ pat ++ t := by
  obtain ⟨t, ht⟩ := findFirst_some h
  exact ⟨t, by rw [List.append_assoc, ht, List.take_append_drop]⟩

/-! Lemmas: replacement. -/

theorem replaceGo_zero {p : Char} {ps repl s : Str} : replaceGo p ps repl 0 s = s := rfl

theorem replaceGo_fuel {p : Char} {ps repl : Str} :
    ∀ {f₁ : Nat} {s : Str} {f₂ : Nat}, s.length ≤ f₁ → s.length ≤ f₂ →
      replaceGo p ps repl f₁ s = replaceGo p ps repl f₂ s := by
  intro f₁
  induction f₁ with
  | zero =>
    intro s f₂ h₁ _
    have : s = [] := List.length_eq_zero.mp (Nat.le_zero.mp h₁)
    subst this
    cases f₂ <;> rfl
  | succ f ih =>
    intro s f₂ h₁ h₂
    cases s with
    | nil => cases f₂ <;> rfl
    | cons c t =>
      cases f₂ with
      | zero => simp at h₂
      | succ f₂' =>
        rw [replaceGo, replaceGo]
        split
        · have hlen : (t.drop ps.length).length ≤ f := by
            simp only [List.length_drop]
            simp only [List.length_cons] at h₁
            omega
          have hlen₂ : (t.drop ps.length).length ≤ f₂' := by
            simp only [List.length_drop]
            simp only [List.length_cons] at h₂
            omega
          rw [ih hlen hlen₂]
        · have hlen : t.length ≤ f := by
            simp only [List.length_cons] at h₁; omega
          have hlen₂ : t.length ≤ f₂' := by
            simp only [List.length_cons] at h₂; omega
          rw [ih hlen hlen₂]

theorem replaceGo_no_occ {p : Char} {ps repl : Str} :
    ∀ {f : Nat} {s : Str}, (∀ j, ¬ (p :: ps) <+: s.drop j) →
      replaceGo p ps repl f s = s := by
  intro f
  induction f with
  | zero => intro s _; rfl
  | succ f ih =>
    intro s hocc
    cases s with
    | nil => rfl
    | cons c t =>
      rw [replaceGo]
      rw [if_neg]
      · rw [ih (fun j => by simpa using hocc (j + 1))]
      · intro hb
        exact hocc 0 (by simpa using List.isPrefixOf_iff_prefix.mp hb)

theorem replaceAll_no_occ {p : Char} {ps repl s : Str}
    (hocc : ∀ j, ¬ (p :: ps) <+: s.drop j) :
    replaceAll s (p :: ps) repl = s :=
  replaceGo_no_occ hocc

theorem replaceGo_split {p : Char} {ps repl : Str} :
    ∀ {x : Str} {f : Nat} {y : Str}, (x ++ (p :: ps) ++ y).length ≤ f →
      (∀ j, j < x.length → ¬ (p :: ps) <+: (x ++ (p :: ps) ++ y).drop j) →
      replaceGo p ps repl f (x ++ (p :: ps) ++ y) =
        x ++ repl ++ replaceAll y (p :: ps) repl := by
  intro x
  induction x with
  | nil =>
    intro f y hf _
    simp only [List.nil_append]
    cases f with
    | zero => simp at hf
    | succ f' =>
      have : (p :: ps) ++ y = p :: (ps ++ y) := rfl
      rw [this, replaceGo, if_pos]
      · rw [List.drop_left]
        have hy : y.length ≤ f' := by
          simp only [this, List.length_cons, List.length_append] at hf ⊢; omega
        rw [replaceGo_fuel hy (Nat.le_refl y.length)]
        rfl
      · exact List.isPrefixOf_iff_prefix.mpr ⟨y, rfl⟩
  | cons c x' ih =>
    intro f y hf hocc
    cases f with
    | zero => simp at hf
    | succ f' =>
      have hs : (c :: x') ++ (p :: ps) ++ y = c :: (x' ++ (p :: ps) ++ y) := by
        simp
      rw [hs, replaceGo, if_neg]
      · rw [ih (by simp only [List.length_cons, List.length_append] at hf ⊢; omega)
          (fun j hj => by
            have := hocc (j + 1) (by simpa using Nat.succ_lt_succ hj)
            simpa [hs] using this)]
        simp
      · intro hb
        have := hocc 0 (by simp)
        exact this (by simpa using List.isPrefixOf_iff_prefix.mp hb)

theorem replaceAll_split {p : Char} {ps repl x y : Str}
    (hocc : ∀ j, j < x.length → ¬ (p :: ps) <+: (x ++ (p :: ps) ++ y).drop j) :
    replaceAll (x ++ (p :: ps) ++ y) (p :: ps) repl =
      x ++ repl ++ replaceAll y (p :: ps) repl :=
  replaceGo_split (Nat.le_refl _) hocc

/-! Lemmas: occurrences of placeholder tokens in an interleaving of
brace-free chunks and tokens. -/

theorem braceFree_mem {c : Str} (h : braceFree c = true) {x : Char} (hx : x ∈ c) :
    x ≠ '\x7b' ∧ x ≠ '\x7d' := by
  simp only [braceFree, List.all_eq_true] at h
  simpa using h x hx

theorem braceFree_cons {a : Char} {l : Str} (h : braceFree (a :: l) = true) :
    braceFree l = true := by
  simp only [braceFree, List.all_cons, Bool.and_eq_true] at h
  exact h.2

theorem chunk_no_open {c : Str} (h : braceFree c = true) {jj : Nat} (hjj : jj < c.length)
    {r Z : Str} : ¬ ('\x7b' :: r) <+: (c.drop jj ++ Z) := by
  intro hp
  rw [List.drop_eq_getElem_cons hjj, List.cons_append, List.cons_prefix_cons] at hp
  exact (braceFree_mem h (List.getElem_mem hjj)).1 hp.1.symm

theorem tok_tail_no_open {m : Str} (hm : braceFree m = true) :
    ∀ {jj : Nat} {r Z : Str}, jj < m.length + 2 →
      ¬ ('\x7b' :: r) <+: ((m ++ '\x7d' :: '\x7d' :: Z).drop jj) := by
  induction m with
  | nil =>
    intro jj r Z hjj hp
    simp only [List.nil_append] at hp
    rcases jj with _ | _ | jj
    · rw [List.drop_zero, List.cons_prefix_cons] at hp
      exact absurd hp.1 (by decide)
    · rw [List.drop_succ_cons, List.drop_zero, List.cons_prefix_cons] at hp
      exact absurd hp.1 (by decide)
    · simp only [List.length_nil] at hjj; omega
  | cons a m' ih =>
    intro jj r Z hjj hp
    cases jj with
    | zero =>
      rw [List.cons_append, List.drop_zero, List.cons_prefix_cons] at hp
      exact (braceFree_mem hm (List.mem_cons_self a m')).1 hp.1.symm
    | succ jj' =>
      rw [List.cons_append, List.drop_succ_cons] at hp
      have hjj' : jj' < m'.length + 2 := by
        simp only [List.length_cons] at hjj; omega
      exact ih (braceFree_cons hm) hjj' hp

theorem tok_names_eq : ∀ {n m z : Str}, braceFree n = true → braceFree m = true →
    (n ++ ['\x7d', '\x7d']) <+: (m ++ '\x7d' :: '\x7d' :: z) → n = m := by
  intro n
  induction n with
  | nil =>
    intro m z _ hm hp
    cases m with
    | nil => rfl
    | cons b m' =>
      rw [List.nil_append, List.cons_append, List.cons_prefix_cons] at hp
      exact absurd hp.1.symm (braceFree_mem hm (List.mem_cons_self b m')).2
  | cons a n' ih =>
    intro m z hn hm hp
    cases m with
    | nil =>
      rw [List.cons_append, List.nil_append, List.cons_prefix_cons] at hp
      exact absurd hp.1 (braceFree_mem hn (List.mem_cons_self a n')).2
    | cons b m' =>
      rw [List.cons_append, List.cons_append, List.cons_prefix_cons] at hp
      obtain ⟨rfl, hp'⟩ := hp
      rw [ih (braceFree_cons hn) (braceFree_cons hm) hp']

theorem tokStr_prefix_eq {n m z : Str} (hn : braceFree n = true) (hm : braceFree m = true)
    (hp : tokStr n <+: tokStr m ++ z) : n = m := by
  have he : tokStr m ++ z = '\x7b' :: '\x7b' :: (m ++ '\x7d' :: '\x7d' :: z) := by
    simp [tokStr]
  rw [he, tokStr, List.cons_prefix_cons] at hp
  obtain ⟨-, hp⟩ := hp
  rw [List.cons_prefix_cons] at hp
  obtain ⟨-, hp⟩ := hp
  exact tok_names_eq hn hm hp

theorem flatten_append : ∀ (a b : List Item), flatten (a ++ b) = flatten a ++ flatten b := by
  intro a b
  induction a with
  | nil => simp [flatten]
  | cons it rest ih =>
    cases it with
    | chunk c => simp [flatten, ih, List.append_assoc]
    | tok nm => simp [flatten, ih, List.append_assoc]

theorem tokStr_length {n : Str} : (tokStr n).length = n.length + 4 := by
  simp [tokStr]

theorem no_tok_occ : ∀ {its : List Item} {n y : Str} {j : Nat},
    goodItems its = true → braceFree n = true → hasTok n its = false →
    j < (flatten its).length → ¬ tokStr n <+: ((flatten its ++ y).drop j) := by
  intro its
  induction its with
  | nil =>
    intro n y j _ _ _ hj
    simp [flatten] at hj
  | cons it rest ih =>
    intro n y j hg hn ht hj
    have hgi : goodItem it = true ∧ goodItems rest = true := by
      simpa [goodItems] using hg
    have hti : ¬ it = Item.tok n ∧ hasTok n rest = false := by
      simpa [hasTok] using ht
    cases it with
    | chunk c =>
      have hfe : flatten (Item.chunk c :: rest) ++ y = c ++ (flatten rest ++ y) := by
        simp [flatten, List.append_assoc]
      have hlen : (flatten (Item.chunk c :: rest)).length
          = c.length + (flatten rest).length := by
        simp [flatten]
      rw [hfe]
      by_cases hc : j < c.length
      · rw [List.drop_append_eq_append_drop, Nat.sub_eq_zero_of_le (Nat.le_of_lt hc),
          List.drop_zero]
        simp only [tokStr]
        exact chunk_no_open hgi.1 hc
      · rw [List.drop_append_eq_append_drop,
          List.drop_eq_nil_of_le (Nat.le_of_not_lt hc), List.nil_append]
        apply ih hgi.2 hn hti.2
        rw [hlen] at hj
        omega
    | tok m =>
      have hbm : braceFree m = true := by
        have := hgi.1
        simp only [goodItem, Bool.and_eq_true] at this
        exact this.1
      have hmn : m ≠ n := fun he => hti.1 (by rw [he])
      have hfe : flatten (Item.tok m :: rest) ++ y
          = '\x7b' :: '\x7b' :: (m ++ '\x7d' :: '\x7d' :: (flatten rest ++ y)) := by
        simp [flatten, tokStr, List.append_assoc]
      have hlen : (flatten (Item.tok m :: rest)).length
          = m.length + 4 + (flatten rest).length := by
        have : flatten (Item.tok m :: rest) = tokStr m ++ flatten rest := rfl
        rw [this, List.length_append, tokStr_length]
      rw [hfe]
      rcases j with _ | j'
      · intro hp
        rw [List.drop_zero] at hp
        have he : tokStr m ++ (flatten rest ++ y)
            = '\x7b' :: '\x7b' :: (m ++ '\x7d' :: '\x7d' :: (flatten rest ++ y)) := by
          simp [tokStr]
        have hp' : tokStr n <+: tokStr m ++ (flatten rest ++ y) := he.symm ▸ hp
        exact hmn (tokStr_prefix_eq hn hbm hp').symm
      rcases j' with _ | j''
      · intro hp
        rw [List.drop_succ_cons, List.drop_zero] at hp
        rw [tokStr, List.cons_prefix_cons] at hp
        have := @tok_tail_no_open m hbm 0 (n ++ ['\x7d', '\x7d'])
          (flatten rest ++ y) (by omega)
        rw [List.drop_zero] at this
        exact this hp.2
      · rw [List.drop_succ_cons, List.drop_succ_cons]
        by_cases hcase : j'' < m.length + 2
        · intro hp
          rw [tokStr] at hp
          exact tok_tail_no_open hbm hcase hp
        · have hW : (m ++ '\x7d' :: '\x7d' :: (flatten rest ++ y)).drop j''
              = (flatten rest ++ y).drop (j'' - m.length - 2) := by
            rw [List.drop_append_eq_append_drop,
              List.drop_eq_nil_of_le (by omega), List.nil_append]
            obtain ⟨k, hk⟩ : ∃ k, j'' - m.length = (j'' - m.length - 2) + 2 :=
              ⟨j'' - m.length - 2, by omega⟩
            rw [hk, List.drop_succ_cons, List.drop_succ_cons]
            congr 1
          rw [hW]
          apply ih hgi.2 hn hti.2
          rw [hlen] at hj
          omega

theorem infix_iff_exists_drop {p s : Str} : p <:+: s ↔ ∃ j, p <+: s.drop j := by
  constructor
  · rintro ⟨u, v, rfl⟩
    refine ⟨u.length, v, ?_⟩
    rw [List.append_assoc, List.drop_left]
  · rintro ⟨j, t, ht⟩
    exact ⟨s.take j, t, by rw [List.append_assoc, ht, List.take_append_drop]⟩

theorem not_infix_of_noTok {its : List Item} {n : Str} (hg : goodItems its = true)
    (hn : braceFree n = true) (ht : hasTok n its = false) :
    ¬ tokStr n <:+: flatten its := by
  intro hi
  obtain ⟨j, hj⟩ := infix_iff_exists_drop.mp hi
  by_cases hlt : j < (flatten its).length
  · refine @no_tok_occ its n [] j hg hn ht hlt ?_
    rw [List.append_nil]
    exact hj
  · rw [List.drop_eq_nil_of_le (Nat.le_of_not_lt hlt)] at hj
    have := List.prefix_nil.mp hj
    simp [tokStr] at this

theorem infix_append_left {l s t : Str} (h : l <:+: t) : l <:+: s ++ t := by
  obtain ⟨u, v, rfl⟩ := h
  exact ⟨s ++ u, v, by simp [List.append_assoc]⟩

theorem tok_mem_infix : ∀ {its : List Item} {u : Str},
    Item.tok u ∈ its → tokStr u <:+: flatten its := by
  intro its
  induction its with
  | nil =>
    intro u h
    simp at h
  | cons it rest ih =>
    intro u h
    rcases List.mem_cons.mp h with he | hm
    · rw [← he]
      exact ⟨[], flatten rest, by simp [flatten]⟩
    · cases it with
      | chunk c =>
        show tokStr u <:+: flatten (Item.chunk c :: rest)
        simp only [flatten]
        exact infix_append_left (ih hm)
      | tok w =>
        show tokStr u <:+: flatten (Item.tok w :: rest)
        simp only [flatten]
        exact infix_append_left (ih hm)

/-! Lemmas: the substitution chain acts item-wise on an interleaving. -/

theorem tokStr_ne_nil {n : Str} : tokStr n ≠ [] := by
  simp [tokStr]

theorem replaceAll_no_occ_ne {pat repl s : Str} (hne : pat ≠ [])
    (hocc : ∀ j, ¬ pat <+: s.drop j) : replaceAll s pat repl = s := by
  cases pat with
  | nil => exact absurd rfl hne
  | cons p ps => exact replaceAll_no_occ hocc

theorem replaceAll_split_ne {pat repl x y : Str} (hne : pat ≠ [])
    (hocc : ∀ j, j < x.length → ¬ pat <+: (x ++ pat ++ y).drop j) :
    replaceAll (x ++ pat ++ y) pat repl = x ++ repl ++ replaceAll y pat repl := by
  cases pat with
  | nil => exact absurd rfl hne
  | cons p ps => exact replaceAll_split hocc

theorem hasTok_decomp : ∀ {its : List Item} {n : Str}, hasTok n its = true →
    ∃ pre post, its = pre ++ Item.tok n :: post ∧ hasTok n pre = false := by
  intro its
  induction its with
  | nil =>
    intro n h
    simp [hasTok] at h
  | cons it rest ih =>
    intro n h
    by_cases he : it = Item.tok n
    · exact ⟨[], rest, by simp [he], by simp [hasTok]⟩
    · have h' : hasTok n rest = true := by
        simp only [hasTok, List.any_cons, Bool.or_eq_true] at h
        rcases h with h1 | h2
        · exact absurd (by simpa using h1) he
        · simpa [hasTok] using h2
      obtain ⟨pre, post, heq, hpre⟩ := ih h'
      refine ⟨it :: pre, post, by rw [heq]; rfl, ?_⟩
      simp only [hasTok, List.any_cons, Bool.or_eq_false_iff]
      constructor
      · simpa using he
      · simpa [hasTok] using hpre

theorem substTok_id : ∀ {n v : Str} {l : List Item}, hasTok n l = false →
    substTok n v l = l := by
  intro n v l
  induction l with
  | nil => intro _; rfl
  | cons it rest ih =>
    intro h
    simp only [hasTok, List.any_cons, Bool.or_eq_false_iff] at h
    have hne2 : ¬ it = Item.tok n := by simpa using h.1
    simp only [substTok, List.map_cons, if_neg hne2]
    have := ih (by simpa [hasTok] using h.2)
    simp only [substTok] at this
    rw [this]

theorem goodItems_append {a b : List Item} :
    goodItems (a ++ b) = true ↔ goodItems a = true ∧ goodItems b = true := by
  simp [goodItems, List.all_append]

theorem goodItems_substTok {n v : Str} {l : List Item} (hg : goodItems l = true)
    (hv : braceFree v = true) : goodItems (substTok n v l) = true := by
  simp only [goodItems, substTok, List.all_eq_true] at hg ⊢
  intro it hit
  obtain ⟨a, ha, rfl⟩ := List.mem_map.mp hit
  by_cases he : a = Item.tok n
  · rw [if_pos he]
    simpa [goodItem] using hv
  · rw [if_neg he]
    exact hg a ha

theorem substTok_append {n v : Str} {a b : List Item} :
    substTok n v (a ++ b) = substTok n v a ++ substTok n v b := by
  simp [substTok]

theorem replaceAll_flatten {n v : Str} (hn : braceFree n = true) :
    ∀ {its : List Item}, goodItems its = true →
      replaceAll (flatten its) (tokStr n) v = flatten (substTok n v its) := by
  have main : ∀ (L : Nat) (its : List Item), its.length ≤ L → goodItems its = true →
      replaceAll (flatten its) (tokStr n) v = flatten (substTok n v its) := by
    intro L
    induction L with
    | zero =>
      intro its hlen _
      have : its = [] := List.length_eq_zero.mp (Nat.le_zero.mp hlen)
      subst this
      rfl
    | succ L ih =>
      intro its hlen hg
      by_cases ht : hasTok n its = true
      · obtain ⟨pre, post, rfl, hpre⟩ := hasTok_decomp ht
        have hgp := goodItems_append.mp hg
        have hgpost : goodItems post = true := by
          have := hgp.2
          simp only [goodItems, List.all_cons, Bool.and_eq_true] at this
          exact this.2
        have hflat : flatten (pre ++ Item.tok n :: post)
            = (flatten pre ++ tokStr n) ++ flatten post := by
          rw [flatten_append, List.append_assoc]
          rfl
        rw [hflat]
        have hocc : ∀ j, j < (flatten pre).length →
            ¬ tokStr n <+: (((flatten pre ++ tokStr n) ++ flatten post).drop j) := by
          intro j hj
          have hy := @no_tok_occ pre n (tokStr n ++ flatten post) j hgp.1 hn hpre hj
          rw [← List.append_assoc] at hy
          exact hy
        rw [replaceAll_split_ne tokStr_ne_nil hocc]
        have hlenp : post.length ≤ L := by
          simp only [List.length_append, List.length_cons] at hlen
          omega
        rw [ih post hlenp hgpost]
        rw [substTok_append]
        rw [substTok_id hpre]
        have hpost : substTok n v (Item.tok n :: post)
            = Item.chunk v :: substTok n v post := by
          simp [substTok]
        rw [hpost, flatten_append]
        simp [flatten, List.append_assoc]
      · have hf : hasTok n its = false := by simpa using ht
        rw [substTok_id hf]
        apply replaceAll_no_occ_ne tokStr_ne_nil
        intro j
        by_cases hlt : j < (flatten its).length
        · have := @no_tok_occ its n [] j hg hn hf hlt
          rw [List.append_nil] at this
          exact this
        · rw [List.drop_eq_nil_of_le (Nat.le_of_not_lt hlt)]
          intro hp
          exact tokStr_ne_nil (List.prefix_nil.mp hp)
  intro its hg
  exact main its.length its (Nat.le_refl _) hg

theorem renderSubs_flatten : ∀ {subs : List (Str × Str)} {its : List Item},
    goodItems its = true →
    (∀ nv ∈ subs, braceFree nv.1 = true ∧ braceFree nv.2 = true) →
    renderSubs subs (flatten its) = flatten (applySubs subs its) := by
  intro subs
  induction subs with
  | nil =>
    intro its _ _
    simp [renderSubs, applySubs]
  | cons nv rest ih =>
    intro its hg hs
    have h1 : renderSubs (nv :: rest) (flatten its)
        = renderSubs rest (replaceAll (flatten its) (tokStr nv.1) nv.2) := by
      simp [renderSubs]
    have h2 : applySubs (nv :: rest) its = applySubs rest (substTok nv.1 nv.2 its) := by
      simp [applySubs]
    rw [h1, h2, replaceAll_flatten (hs nv (List.mem_cons_self nv rest)).1 hg]
    exact ih (goodItems_substTok hg (hs nv (List.mem_cons_self nv rest)).2)
      (fun x hx => hs x (List.mem_cons_of_mem nv hx))

theorem resolveFun_nil (it : Item) : resolveFun [] it = it := by
  cases it <;> rfl

theorem resolveFun_step {nv : Str × Str} {subs : List (Str × Str)} (it : Item) :
    resolveFun subs (if it = Item.tok nv.1 then Item.chunk nv.2 else it)
      = resolveFun (nv :: subs) it := by
  cases it with
  | chunk c => simp [resolveFun]
  | tok mname =>
    by_cases he : mname = nv.1
    · subst he
      simp [resolveFun, subsLookup]
    · have h1 : ¬ (Item.tok mname = Item.tok nv.1) := by simp [he]
      rw [if_neg h1]
      have h2 : ¬ (nv.1 = mname) := fun hh => he hh.symm
      simp [resolveFun, subsLookup, if_neg h2]

theorem applySubs_eq_map : ∀ (subs : List (Str × Str)) (l : List Item),
    applySubs subs l = l.map (resolveFun subs) := by
  intro subs
  induction subs with
  | nil =>
    intro l
    have h1 : applySubs [] l = l := rfl
    rw [h1]
    have h2 : ∀ it ∈ l, it = resolveFun [] it := fun it _ => (resolveFun_nil it).symm
    calc l = l.map id := by rw [List.map_id]
    _ = l.map (resolveFun []) := List.map_congr_left (fun it _ => (resolveFun_nil it).symm)
  | cons nv rest ih =>
    intro l
    have h1 : applySubs (nv :: rest) l = applySubs rest (substTok nv.1 nv.2 l) := by
      simp [applySubs]
    rw [h1, ih, substTok, List.map_map]
    apply List.map_congr_left
    intro it _
    simp only [Function.comp]
    exact resolveFun_step it

theorem hasTok_substTok_self {n v : Str} {l : List Item} :
    hasTok n (substTok n v l) = false := by
  simp only [hasTok, substTok]
  rw [List.any_map, List.any_eq_false]
  intro a _
  by_cases he : a = Item.tok n
  · simp [Function.comp, he]
  · simp [Function.comp, he]

theorem hasTok_substTok_mono {n m v : Str} {l : List Item} (h : hasTok n l = false) :
    hasTok n (substTok m v l) = false := by
  simp only [hasTok] at h
  rw [List.any_eq_false] at h
  simp only [hasTok, substTok]
  rw [List.any_map, List.any_eq_false]
  intro a ha
  have hna := h a ha
  by_cases he : a = Item.tok m
  · simp [Function.comp, he]
  · simpa [Function.comp, he] using hna

theorem applySubs_pres_noTok : ∀ {subs : List (Str × Str)} {l : List Item} {n : Str},
    hasTok n l = false → hasTok n (applySubs subs l) = false := by
  intro subs
  induction subs with
  | nil =>
    intro l n h
    simpa [applySubs] using h
  | cons nv rest ih =>
    intro l n h
    have h1 : applySubs (nv :: rest) l = applySubs rest (substTok nv.1 nv.2 l) := by
      simp [applySubs]
    rw [h1]
    exact ih (hasTok_substTok_mono h)

theorem applySubs_noTok : ∀ {subs : List (Str × Str)} {l : List Item} {n v : Str},
    (n, v) ∈ subs → hasTok n (applySubs subs l) = false := by
  intro subs
  induction subs with
  | nil =>
    intro l n v h
    simp at h
  | cons nv rest ih =>
    intro l n v h
    have h1 : applySubs (nv :: rest) l = applySubs rest (substTok nv.1 nv.2 l) := by
      simp [applySubs]
    rw [h1]
    rcases List.mem_cons.mp h with he | hm
    · apply applySubs_pres_noTok
      have hfst : nv.1 = n := by rw [← he]
      rw [hfst]
      exact hasTok_substTok_self
    · exact ih hm

theorem substTok_keeps {u n v : Str} {l : List Item} (hne : n ≠ u)
    (h : Item.tok u ∈ l) : Item.tok u ∈ substTok n v l := by
  have hmem := List.mem_map_of_mem
    (fun it => if it = Item.tok n then Item.chunk v else it) h
  have hneq : ¬ (Item.tok u = Item.tok n) := by
    simp only [Item.tok.injEq]
    exact fun hh => hne hh.symm
  simp only [if_neg hneq] at hmem
  exact hmem

theorem applySubs_keeps : ∀ {subs : List (Str × Str)} {l : List Item} {u : Str},
    Item.tok u ∈ l → (∀ nv ∈ subs, nv.1 ≠ u) → Item.tok u ∈ applySubs subs l := by
  intro subs
  induction subs with
  | nil =>
    intro l u h _
    simpa [applySubs] using h
  | cons nv rest ih =>
    intro l u h hs
    have h1 : applySubs (nv :: rest) l = applySubs rest (substTok nv.1 nv.2 l) := by
      simp [applySubs]
    rw [h1]
    exact ih (substTok_keeps (hs nv (List.mem_cons_self nv rest)) h)
      (fun x hx => hs x (List.mem_cons_of_mem nv hx))

theorem navVal_braceFree {a k : Str} : braceFree (navVal a k) = true := by
  by_cases h : k = a
  · simp only [navVal, if_pos h]
    decide
  · simp only [navVal, if_neg h]
    rfl

theorem str_nav_cons : "\x7b\x7bNAV_".data = '\x7b' :: '\x7b' :: "NAV_".data := rfl

theorem str_close_pair : "\x7d\x7d".data = ['\x7d', '\x7d'] := rfl

theorem navPh_eq (k : Str) : navPh k = tokStr ("NAV_".data ++ upperStr k) := by
  rw [navPh, tokStr, str_nav_cons, str_close_pair]
  simp [List.append_assoc]

theorem tokStr_TITLE : tokStr ("TITLE".data) = "\x7b\x7bTITLE\x7d\x7d".data := rfl

theorem tokStr_DESCRIPTION :
    tokStr ("DESCRIPTION".data) = "\x7b\x7bDESCRIPTION\x7d\x7d".data := rfl

theorem tokStr_MAX_WIDTH :
    tokStr ("MAX_WIDTH".data) = "\x7b\x7bMAX_WIDTH\x7d\x7d".data := rfl

theorem tokStr_PAGE_CSS :
    tokStr ("PAGE_CSS".data) = "\x7b\x7bPAGE_CSS\x7d\x7d".data := rfl

theorem tokStr_BODY : tokStr ("BODY".data) = "\x7b\x7bBODY\x7d\x7d".data := rfl

theorem tokStr_PAGE_JS :
    tokStr ("PAGE_JS".data) = "\x7b\x7bPAGE_JS\x7d\x7d".data := rfl

theorem render_eq_renderSubs (layout : Str) (p : PageParts) :
    render layout p = renderSubs (pageSubs p) layout := by
  simp only [render, renderSubs, pageSubs, List.foldl_append, List.foldl_cons,
    List.foldl_nil, List.foldl_map, navPh_eq, tokStr_TITLE, tokStr_DESCRIPTION,
    tokStr_MAX_WIDTH, tokStr_PAGE_CSS, tokStr_BODY, tokStr_PAGE_JS]
  rfl

theorem pageSubs_fst (p : PageParts) : (pageSubs p).map Prod.fst = recognizedNames := by
  simp only [pageSubs, recognizedNames, List.map_append, List.map_cons, List.map_nil,
    List.map_map]
  rfl

theorem recognizedNames_good : ∀ nm ∈ recognizedNames, braceFree nm = true ∧ nm ≠ [] := by
  decide

/-! Lemmas: navigation values, build loop, sorting. -/

theorem navVal_eq_iff {active key : Str} :
    navVal active key = activeAttr ↔ key = active := by
  constructor
  · intro h
    by_contra hne
    rw [navVal, if_neg hne] at h
    exact (by decide : ¬ (([] : Str) = activeAttr)) h
  · intro h
    rw [navVal, if_pos h]

theorem buildLoop_fail (layout : Str) :
    ∀ (done : List (Str × Str)) (bad : Str × Str) (rest : List (Str × Str)),
      (∀ f ∈ done, (parse_page f.2).isSome = true) →
      parse_page bad.2 = none →
      buildLoop layout (done ++ bad :: rest)
        = ⟨done.map (fun f => (f.1, renderFile layout f.2)), 1⟩ := by
  intro done
  induction done with
  | nil =>
    intro bad rest _ hbad
    simp [buildLoop, hbad]
  | cons f done2 ih =>
    intro bad rest hdone hbad
    have hf : (parse_page f.2).isSome = true := hdone f (List.mem_cons_self f done2)
    obtain ⟨p, hp⟩ := Option.isSome_iff_exists.mp hf
    rw [List.cons_append]
    simp only [buildLoop, hp]
    rw [ih bad rest (fun g hg => hdone g (List.mem_cons_of_mem f hg)) hbad]
    simp [renderFile, hp]

theorem buildLoop_ok (layout : Str) :
    ∀ (pages : List (Str × Str)), (∀ f ∈ pages, (parse_page f.2).isSome = true) →
      buildLoop layout pages
        = ⟨pages.map (fun f => (f.1, renderFile layout f.2)), 0⟩ := by
  intro pages
  induction pages with
  | nil =>
    intro _
    rfl
  | cons f rest ih =>
    intro hps
    have hf : (parse_page f.2).isSome = true := hps f (List.mem_cons_self f rest)
    obtain ⟨p, hp⟩ := Option.isSome_iff_exists.mp hf
    simp only [buildLoop, hp]
    rw [ih (fun g hg => hps g (List.mem_cons_of_mem f hg))]
    simp [renderFile, hp]

theorem insertSorted_perm (x : Str × Str) :
    ∀ l : List (Str × Str), (insertSorted x l).Perm (x :: l) := by
  intro l
  induction l with
  | nil => exact List.Perm.refl _
  | cons y ys ih =>
    rw [insertSorted]
    split
    · exact List.Perm.refl _
    · exact List.Perm.trans (List.Perm.cons y ih) (List.Perm.swap x y ys)

theorem sortPages_perm : ∀ l : List (Str × Str), (sortPages l).Perm l := by
  intro l
  induction l with
  | nil => exact List.Perm.refl _
  | cons f rest ih =>
    have h1 : sortPages (f :: rest) = insertSorted f (sortPages rest) := rfl
    rw [h1]
    exact List.Perm.trans (insertSorted_perm f (sortPages rest)) (List.Perm.cons f ih)

/-! The claims. -/

set_option maxRecDepth 4000 in
/-- C2: the spec's example page source parses to the metadata mapping with
title Config and active config, the tag-stripped page CSS rule, the body
paragraph, and the page JS block with its tags retained; rendering it
through a layout containing every recognized placeholder yields exactly the
expected text: the title inserted, empty description, default max-width,
the CSS rule at the page-CSS position, the body at the body position, the
script block with tags at the page-JS position, the config navigation
placeholder replaced by the active marker, and every other navigation
placeholder replaced by the empty string. -/
theorem c2_example_page :
    parse_page c2Src
      = some ⟨[("active".data, "config".data), ("title".data, "Config".data)],
          ".x\x7bcolor:red\x7d".data, "<p>Hello</p>".data,
          "\n<script>console.log(1)</script>\n".data⟩ ∧
    render c2Layout ((parse_page c2Src).getD noPage)
      = "<title>Config</title>||820px|.x\x7bcolor:red\x7d|<p>Hello</p>|\n<script>console.log(1)</script>\n||class=\"active\"|||||".data := by
  constructor
  · rfl
  · rfl

theorem countP_nodup_le_one {l : List Str} (h : l.Nodup) (a : Str) :
    l.countP (fun x => decide (x = a)) ≤ 1 := by
  induction l with
  | nil => simp
  | cons b t ih =>
    rw [List.countP_cons]
    rcases List.nodup_cons.mp h with ⟨hb, ht⟩
    by_cases he : b = a
    · subst he
      have hz : t.countP (fun x => decide (x = b)) = 0 := by
        rw [List.countP_eq_zero]
        intro x hx
        simp only [decide_eq_true_eq]
        intro hxa
        exact hb (hxa ▸ hx)
      simp [hz]
    · simp only [decide_eq_true_eq, he]
      simpa using ih ht

/-- C3: a navigation replacement value equals the active marker exactly when
its key equals the page metadata value `active`; hence among the navigation
keys at most one receives the marker, and when `active` matches no
navigation key every navigation placeholder is replaced by the empty
string. -/
theorem c3_nav_exclusive (active : Str) :
    (∀ key ∈ navKeys, (navVal active key = activeAttr ↔ key = active)) ∧
    navKeys.countP (fun k => decide (navVal active k = activeAttr)) ≤ 1 ∧
    (active ∉ navKeys → ∀ key ∈ navKeys, navVal active key = []) := by
  refine ⟨fun key _ => navVal_eq_iff, ?_, ?_⟩
  · have hcong : navKeys.countP (fun k => decide (navVal active k = activeAttr))
        = navKeys.countP (fun k => decide (k = active)) := by
      apply List.countP_congr
      intro k _
      simp only [decide_eq_true_eq]
      exact navVal_eq_iff
    rw [hcong]
    exact countP_nodup_le_one (show navKeys.Nodup by decide) active
  · intro hna key hk
    rw [navVal, if_neg]
    intro he
    exact hna (he ▸ hk)

/-- C3 witness: at the concrete page value config, the config key maps to
the active marker and the count of keys receiving the marker is at most
one. -/
theorem c3_nav_witness :
    (navVal "config".data "config".data = activeAttr ↔ "config".data = "config".data) ∧
    navKeys.countP (fun k => decide (navVal "config".data k = activeAttr)) ≤ 1 :=
  ⟨(c3_nav_exclusive "config".data).1 ("config".data) (by decide),
   (c3_nav_exclusive "config".data).2.1⟩

/-- C5: when the sorted, filtered page listing splits as the parseable pages
`done` followed by a page that fails to parse, the build writes exactly the
rendered outputs of `done`, writes nothing for the failing page or any later
page, removes nothing already written, and exits with code 1. -/
theorem c5_parse_failure_partial (layout : Str) (files : List (Str × Str))
    (done : List (Str × Str)) (bad : Str × Str) (rest : List (Str × Str))
    (hsort : sortPages (files.filter (fun f => ".html".data.isSuffixOf f.1))
      = done ++ bad :: rest)
    (hdone : ∀ f ∈ done, (parse_page f.2).isSome = true)
    (hbad : parse_page bad.2 = none) :
    build layout files = ⟨done.map (fun f => (f.1, renderFile layout f.2)), 1⟩ := by
  simp only [build, hsort]
  rw [if_neg (by simp)]
  exact buildLoop_fail layout done bad rest hdone hbad

/-- C5 witness: with pages a.html and b.html parseable and c.html malformed,
the build writes exactly the two outputs of a.html and b.html, in sorted
order, and exits 1. -/
theorem c5_partial_witness :
    build c5Layout c5Files
      = ⟨[("a.html".data, "A".data), ("b.html".data, "B".data)], 1⟩ := by
  have h := c5_parse_failure_partial c5Layout c5Files
    [("a.html".data, "---\nt: 1\n---\nA\n".data),
     ("b.html".data, "---\nt: 1\n---\nB\n".data)]
    ("c.html".data, "no frontmatter".data) []
    (by decide) (by decide) (by rfl)
  rw [h]
  rfl

/-- C6: when no file in the pages directory has the `.html` extension, the
build writes nothing and exits with code 1. -/
theorem c6_no_pages (layout : Str) (files : List (Str × Str))
    (h : ∀ f ∈ files, ¬ (".html".data.isSuffixOf f.1 = true)) :
    build layout files = ⟨[], 1⟩ := by
  have hf : files.filter (fun f => ".html".data.isSuffixOf f.1) = [] :=
    List.filter_eq_nil_iff.mpr h
  simp only [build, hf]
  rfl

/-- C6 witness: a directory listing with only non-html files produces no
writes and exit code 1. -/
theorem c6_no_pages_witness : build "L".data c6Files = ⟨[], 1⟩ :=
  c6_no_pages "L".data c6Files (by decide)

/-- C7: the page parser is a pure function of the input text: equal inputs
parse to equal (metadata, css, body, js) results. -/
theorem c7_parse_deterministic (c₁ c₂ : Str) (h : c₁ = c₂) :
    parse_page c₁ = parse_page c₂ := by
  rw [h]

/-- C7 witness: parsing the same concrete page twice yields the same
result. -/
theorem c7_parse_witness : parse_page c7Src = parse_page c7Src :=
  c7_parse_deterministic c7Src c7Src rfl

/-- C8: the build is a pure function of the layout and the page sources, so
running it twice on unchanged inputs gives byte-identical outputs; moreover
when every filtered page parses, the output file names are exactly the
sorted source file names (identity mapping). -/
theorem c8_idempotent (layout : Str) (files : List (Str × Str)) :
    build layout files = build layout files ∧
    ((∀ f ∈ files, ".html".data.isSuffixOf f.1 = true →
        (parse_page f.2).isSome = true) →
      (build layout files).written.map Prod.fst
        = (sortPages (files.filter (fun f => ".html".data.isSuffixOf f.1))).map
            Prod.fst) := by
  refine ⟨rfl, ?_⟩
  intro hps
  have hall : ∀ f ∈ sortPages (files.filter (fun f => ".html".data.isSuffixOf f.1)),
      (parse_page f.2).isSome = true := by
    intro f hf
    have hmem : f ∈ files.filter (fun f => ".html".data.isSuffixOf f.1) :=
      (sortPages_perm _).mem_iff.mp hf
    have hsp := List.mem_filter.mp hmem
    exact hps f hsp.1 hsp.2
  by_cases hemp :
      (sortPages (files.filter (fun f => ".html".data.isSuffixOf f.1))).isEmpty = true
  · rw [List.isEmpty_iff.mp hemp]
    simp only [build]
    rw [List.isEmpty_iff.mp hemp]
    rfl
  · simp only [build]
    rw [if_neg hemp, buildLoop_ok _ _ hall]
    simp [List.map_map]

/-- C8 witness: on a concrete listing whose html pages all parse, the output
names are exactly the sorted source names. -/
theorem c8_idempotent_witness :
    (build "\x7b\x7bBODY\x7d\x7d".data c8Files).written.map Prod.fst
      = ["a.html".data, "b.html".data] := by
  have h := (c8_idempotent "\x7b\x7bBODY\x7d\x7d".data c8Files).2 (by decide)
  rw [h]
  rfl

/-- C9: the parser accepts a page only if its text starts exactly with the
opening marker line (three dashes then a newline, with nothing before it)
and later contains a closing marker line followed by a newline; a page whose
text ends right after the closing dashes with no trailing newline, or with a
leading space before the opening marker, fails to parse. -/
theorem c9_frontmatter_markers :
    (∀ (c : Str) (p : PageParts), parse_page c = some p →
      ∃ g1 g2, c = "---\n".data ++ g1 ++ "\n---\n".data ++ g2) ∧
    parse_page "---\ntitle: x\n---".data = none ∧
    parse_page " ---\ntitle: x\n---\nbody\n".data = none := by
  refine ⟨?_, rfl, rfl⟩
  intro c p h
  rw [parse_page] at h
  cases hs : splitFront c with
  | none => rw [hs] at h; cases h
  | some g =>
    rw [splitFront] at hs
    split at hs
    · rename_i hpf
      cases hff : findFirst (c.drop 4) ("\n---\n".data) with
      | none => rw [hff] at hs; cases hs
      | some i =>
        obtain ⟨t2, ht2⟩ := List.isPrefixOf_iff_prefix.mp hpf
        have hdrop : ("---\n".data ++ t2).drop 4 = t2 := rfl
        have hc4 : c = "---\n".data ++ c.drop 4 := by
          rw [← ht2, hdrop]
        obtain ⟨t, hdec⟩ := findFirst_decomp hff
        refine ⟨(c.drop 4).take i, t, ?_⟩
        calc c = "---\n".data ++ c.drop 4 := hc4
        _ = "---\n".data ++ ((c.drop 4).take i ++ "\n---\n".data ++ t) := by
            rw [← hdec]
        _ = "---\n".data ++ (c.drop 4).take i ++ "\n---\n".data ++ t := by
            simp [List.append_assoc]
    · cases hs

/-- C9 witness: a well-formed concrete page decomposes around the two marker
lines. -/
theorem c9_frontmatter_witness :
    ∃ g1 g2 : Str, c9Src = "---\n".data ++ g1 ++ "\n---\n".data ++ g2 :=
  c9_frontmatter_markers.1 c9Src
    ⟨[("key".data, "val".data)], [], "body".data, []⟩ rfl

/-! Lemmas: goodness of the page substitution list. -/

theorem applySubs_good : ∀ {subs : List (Str × Str)} {l : List Item},
    goodItems l = true → (∀ nv ∈ subs, braceFree nv.2 = true) →
    goodItems (applySubs subs l) = true := by
  intro subs
  induction subs with
  | nil =>
    intro l hg _
    simpa [applySubs] using hg
  | cons nv rest ih =>
    intro l hg hs
    have h1 : applySubs (nv :: rest) l = applySubs rest (substTok nv.1 nv.2 l) := by
      simp [applySubs]
    rw [h1]
    exact ih (goodItems_substTok hg (hs nv (List.mem_cons_self nv rest)))
      (fun x hx => hs x (List.mem_cons_of_mem nv hx))

theorem navName_braceFree : ∀ k ∈ navKeys, braceFree ("NAV_".data ++ upperStr k) = true := by
  decide

theorem pageSubs_good (p : PageParts)
    (h1 : braceFree (metaGetD p.meta "title".data "oxicrab".data) = true)
    (h2 : braceFree (metaGetD p.meta "description".data []) = true)
    (h3 : braceFree (metaGetD p.meta "max_width".data "820px".data) = true)
    (h4 : braceFree p.css = true) (h5 : braceFree p.body = true)
    (h6 : braceFree p.js = true) :
    ∀ nv ∈ pageSubs p, braceFree nv.1 = true ∧ braceFree nv.2 = true := by
  intro nv hnv
  rw [pageSubs] at hnv
  rcases List.mem_append.mp hnv with hl | hr
  · simp only [List.mem_cons, List.not_mem_nil, or_false] at hl
    rcases hl with rfl | rfl | rfl | rfl | rfl | rfl
    · exact ⟨(by decide : braceFree ("TITLE".data) = true), h1⟩
    · exact ⟨(by decide : braceFree ("DESCRIPTION".data) = true), h2⟩
    · exact ⟨(by decide : braceFree ("MAX_WIDTH".data) = true), h3⟩
    · exact ⟨(by decide : braceFree ("PAGE_CSS".data) = true), h4⟩
    · exact ⟨(by decide : braceFree ("BODY".data) = true), h5⟩
    · exact ⟨(by decide : braceFree ("PAGE_JS".data) = true), h6⟩
  · obtain ⟨k, hk, rfl⟩ := List.mem_map.mp hr
    exact ⟨navName_braceFree k hk, navVal_braceFree⟩

theorem render_flatten_eq (its : List Item) (p : PageParts)
    (hg : goodItems its = true)
    (hs : ∀ nv ∈ pageSubs p, braceFree nv.1 = true ∧ braceFree nv.2 = true) :
    render (flatten its) p = flatten (its.map (resolveFun (pageSubs p))) := by
  rw [render_eq_renderSubs, renderSubs_flatten hg hs, applySubs_eq_map]

/-- C1 (amended): the metadata key the renderer consults for the width is
max_width, spelled with an underscore.  For a layout that is an interleaving
of brace-free chunks and placeholder tokens, and a page whose substituted
values are brace-free, rendering acts item-wise on the interleaving, and
every MAX_WIDTH token resolves to the value of the metadata key max_width
when that key is present, and to the default 820px when it is absent. -/
theorem c1_max_width_underscore (its : List Item) (p : PageParts)
    (hg : goodItems its = true)
    (h1 : braceFree (metaGetD p.meta "title".data "oxicrab".data) = true)
    (h2 : braceFree (metaGetD p.meta "description".data []) = true)
    (h3 : braceFree (metaGetD p.meta "max_width".data "820px".data) = true)
    (h4 : braceFree p.css = true) (h5 : braceFree p.body = true)
    (h6 : braceFree p.js = true) :
    render (flatten its) p = flatten (its.map (resolveFun (pageSubs p))) ∧
    (∀ v, metaGet p.meta "max_width".data = some v →
      resolveFun (pageSubs p) (Item.tok "MAX_WIDTH".data) = Item.chunk v) ∧
    (metaGet p.meta "max_width".data = none →
      resolveFun (pageSubs p) (Item.tok "MAX_WIDTH".data)
        = Item.chunk ("820px".data)) := by
  refine ⟨render_flatten_eq its p hg (pageSubs_good p h1 h2 h3 h4 h5 h6), ?_, ?_⟩
  · intro v hv
    have hres : resolveFun (pageSubs p) (Item.tok ("MAX_WIDTH".data))
        = Item.chunk (metaGetD p.meta "max_width".data "820px".data) := rfl
    rw [hres, metaGetD, hv]
    rfl
  · intro hv
    have hres : resolveFun (pageSubs p) (Item.tok ("MAX_WIDTH".data))
        = Item.chunk (metaGetD p.meta "max_width".data "820px".data) := rfl
    rw [hres, metaGetD, hv]
    rfl

/-- C1 counterexample: a page whose metadata key is max-width (with a
hyphen, as the claim states) is ignored by the renderer: the placeholder is
replaced by the default 820px, not by the page's value 900px. -/
theorem c1_max_width_hyphen_cx :
    metaGet ((parse_page c1Src).getD noPage).meta "max-width".data
      = some ("900px".data) ∧
    render c1Layout ((parse_page c1Src).getD noPage) = "820px".data ∧
    ¬ render c1Layout ((parse_page c1Src).getD noPage) = "900px".data := by
  refine ⟨rfl, rfl, by decide⟩

/-- C1 witness: on a concrete layout made of one MAX_WIDTH token and a
chunk, and a page with metadata max_width 900px, rendering resolves the
token to 900px. -/
theorem c1_max_width_witness :
    render (flatten c1Items) c1Page
      = flatten (c1Items.map (resolveFun (pageSubs c1Page))) ∧
    resolveFun (pageSubs c1Page) (Item.tok "MAX_WIDTH".data)
      = Item.chunk ("900px".data) := by
  have h := c1_max_width_underscore c1Items c1Page (by decide) (by decide) (by decide)
    (by decide) (by decide) (by decide) (by decide)
  exact ⟨h.1, h.2.1 ("900px".data) rfl⟩

/-- C4 (amended): for a layout that is an interleaving of brace-free chunks
and placeholder tokens, and a page whose substituted values contain no brace
character, every recognized placeholder token is absent from the rendered
output, while a token of the layout with no corresponding recognized key
remains in the output untouched. -/
theorem c4_placeholder_coverage (its : List Item) (p : PageParts)
    (hg : goodItems its = true)
    (h1 : braceFree (metaGetD p.meta "title".data "oxicrab".data) = true)
    (h2 : braceFree (metaGetD p.meta "description".data []) = true)
    (h3 : braceFree (metaGetD p.meta "max_width".data "820px".data) = true)
    (h4 : braceFree p.css = true) (h5 : braceFree p.body = true)
    (h6 : braceFree p.js = true) :
    (∀ n ∈ recognizedNames, ¬ tokStr n <:+: render (flatten its) p) ∧
    (∀ u, Item.tok u ∈ its → u ∉ recognizedNames →
      tokStr u <:+: render (flatten its) p) := by
  have hsubs := pageSubs_good p h1 h2 h3 h4 h5 h6
  have hrender : render (flatten its) p = flatten (applySubs (pageSubs p) its) := by
    rw [render_eq_renderSubs]
    exact renderSubs_flatten hg hsubs
  constructor
  · intro n hn
    rw [hrender]
    have hgf : goodItems (applySubs (pageSubs p) its) = true :=
      applySubs_good hg (fun nv hnv => (hsubs nv hnv).2)
    have hn2 : n ∈ (pageSubs p).map Prod.fst := by
      rw [pageSubs_fst]
      exact hn
    obtain ⟨nv, hnv, rfl⟩ := List.mem_map.mp hn2
    have hnt : hasTok nv.1 (applySubs (pageSubs p) its) = false := by
      have hmm : (nv.1, nv.2) ∈ pageSubs p := by
        have hee : (nv.1, nv.2) = nv := rfl
        rw [hee]
        exact hnv
      exact applySubs_noTok hmm
    exact not_infix_of_noTok hgf (hsubs nv hnv).1 hnt
  · intro u hu hnr
    rw [hrender]
    apply tok_mem_infix
    apply applySubs_keeps hu
    intro nv hnv heq
    apply hnr
    rw [← pageSubs_fst, ← heq]
    exact List.mem_map_of_mem Prod.fst hnv

/-- C4 counterexample: the claim as stated fails: for the layout containing
the TITLE and BODY placeholders and a successfully parsed page whose body is
the literal text of the TITLE placeholder, the TITLE token occurs in the
layout yet also occurs in the rendered output, because the later BODY
substitution reintroduces it. -/
theorem c4_coverage_cx :
    (parse_page c4Src).isSome = true ∧
    "\x7b\x7bTITLE\x7d\x7d".data <:+: c4Layout ∧
    "\x7b\x7bTITLE\x7d\x7d".data <:+: render c4Layout ((parse_page c4Src).getD noPage) := by
  refine ⟨rfl, ⟨[], " \x7b\x7bBODY\x7d\x7d".data, rfl⟩, ⟨"oxicrab ".data, [], ?_⟩⟩
  rfl

/-- C4 witness: on a concrete interleaved layout with a TITLE token and an
unrecognized UNKNOWN token, and a page with brace-free values, the rendered
output contains no TITLE token but still contains the UNKNOWN token. -/
theorem c4_coverage_witness :
    (¬ tokStr ("TITLE".data) <:+: render (flatten c4Items) c4Page) ∧
    tokStr ("UNKNOWN".data) <:+: render (flatten c4Items) c4Page := by
  have h := c4_placeholder_coverage c4Items c4Page (by decide) (by decide) (by decide)
    (by decide) (by decide) (by decide) (by decide)
  exact ⟨h.1 ("TITLE".data) (by decide), h.2 ("UNKNOWN".data) (by decide) (by decide)⟩

/-! Lemmas: leftmost script search and the trailing-script region. -/

theorem prefix_of_prefix_append {p A B : Str} (h : p <+: A ++ B)
    (hle : p.length ≤ A.length) : p <+: A := by
  have h1 : p = (A ++ B).take p.length := by
    obtain ⟨r, hr⟩ := h
    rw [← hr, List.take_left]
  rw [List.take_append_eq_append_take, Nat.sub_eq_zero_of_le hle,
    List.take_zero, List.append_nil] at h1
  rw [h1]
  exact List.take_prefix _ _

theorem no_early_occ_of_borderFree {pat x y : Str} (hb : BorderFree pat)
    (hnx : ¬ pat <:+: x) :
    ∀ j, j < x.length → ¬ pat <+: ((x ++ pat ++ y).drop j) := by
  intro j hj hp
  have hxy : (x ++ pat ++ y).drop j = x.drop j ++ (pat ++ y) := by
    rw [List.append_assoc, List.drop_append_of_le_length (Nat.le_of_lt hj)]
  rw [hxy] at hp
  have hAlen : (x.drop j).length = x.length - j := List.length_drop j x
  by_cases hle : pat.length ≤ (x.drop j).length
  · exact hnx (List.infix_iff_prefix_suffix.mpr
      ⟨x.drop j, prefix_of_prefix_append hp hle, List.drop_suffix j x⟩)
  · have hAlt : (x.drop j).length < pat.length := Nat.lt_of_not_le hle
    have hApos : 0 < (x.drop j).length := by omega
    have h1 : pat = (x.drop j ++ (pat ++ y)).take pat.length := by
      obtain ⟨r, hr⟩ := hp
      rw [← hr, List.take_left]
    rw [List.take_append_eq_append_take,
      List.take_of_length_le (Nat.le_of_lt hAlt)] at h1
    have h2 : (pat ++ y).take (pat.length - (x.drop j).length)
        = pat.take (pat.length - (x.drop j).length) :=
      List.take_append_of_le_length (by omega)
    rw [h2] at h1
    have h3 : pat.drop (x.drop j).length
        = pat.take (pat.length - (x.drop j).length) := by
      conv_lhs => rw [h1]
      rw [List.drop_left]
    have hidx : pat.length - (pat.length - (x.drop j).length) = (x.drop j).length := by
      omega
    apply hb (pat.length - (x.drop j).length) (by omega) (by omega)
    rw [hidx]
    exact h3.symm

theorem scanScript_split : ∀ (x : Str) (k : Nat) (y : Str) (bound : Nat),
    (∀ j, j < x.length → ¬ "<script>".data <+: ((x ++ "<script>".data ++ y).drop j)) →
    k + x.length + 17 ≤ bound →
    scanScript bound (x ++ "<script>".data ++ y) k = some (k + x.length) := by
  intro x
  induction x with
  | nil =>
    intro k y bound _ hk
    simp only [List.nil_append]
    have hcons : "<script>".data ++ y = '<' :: ("script>".data ++ y) := rfl
    have hcond : ("<script>".data.isPrefixOf ('<' :: ("script>".data ++ y))
        && decide (k + 17 ≤ bound)) = true := by
      rw [Bool.and_eq_true]
      refine ⟨?_, ?_⟩
      · rw [← hcons]
        exact List.isPrefixOf_iff_prefix.mpr (List.prefix_append _ _)
      · simp only [decide_eq_true_eq]
        omega
    rw [hcons, scanScript, if_pos hcond]
    simp
  | cons c x2 ih =>
    intro k y bound hocc hk
    have hcons : (c :: x2) ++ "<script>".data ++ y
        = c :: (x2 ++ "<script>".data ++ y) := by simp
    rw [hcons, scanScript]
    rw [if_neg]
    · have hshift : ∀ j, j < x2.length →
          ¬ "<script>".data <+: ((x2 ++ "<script>".data ++ y).drop j) := by
        intro j hj
        have hsh := hocc (j + 1) (by simp only [List.length_cons]; omega)
        rw [hcons, List.drop_succ_cons] at hsh
        exact hsh
      rw [ih (k + 1) y bound hshift (by simp only [List.length_cons] at hk; omega)]
      simp only [Option.some.injEq, List.length_cons]
      omega
    · intro hcond
      rw [Bool.and_eq_true] at hcond
      have h0 := hocc 0 (by simp)
      rw [List.drop_zero, hcons] at h0
      exact h0 (List.isPrefixOf_iff_prefix.mp hcond.1)

theorem rstrip_close {X : Str} :
    rstrip (X ++ "</script>".data) = X ++ "</script>".data := by
  rw [rstrip, List.reverse_append]
  have h1 : ("</script>".data).reverse = '>' :: "tpircs/<".data := rfl
  rw [h1, List.cons_append, List.dropWhile_cons,
    if_neg (by decide : ¬ (isSpace '>' = true))]
  rw [← List.cons_append, ← h1, ← List.reverse_append, List.reverse_reverse]

theorem borderFree_script : BorderFree ("<script>".data) := by
  intro k hk hk0
  have hlen : ("<script>".data).length = 8 := rfl
  rw [hlen] at hk
  interval_cases k <;> decide

theorem extractScript_eq_of {rest : Str} {j : Nat}
    (hsuf : "</script>".data.isSuffixOf (rstrip rest) = true)
    (hscan : scanScript (rstrip rest).length rest 0 = some j) :
    extractScript rest = (rest.drop (j - trailWs (rest.take j)),
      rest.take (j - trailWs (rest.take j))) := by
  unfold extractScript
  rw [if_pos hsuf, hscan]

/-- C10: when the content remaining after style extraction consists of a
script-free prefix followed by two script blocks (with arbitrary markup
between them) and ends with a closing script tag, the captured page JS is
the entire suffix starting at the first script-open tag together with the
whitespace run immediately preceding it — so the markup between the two
blocks is part of the page JS — and the remaining body content is only the
prefix before the first script block, with its trailing whitespace moved
into the page JS. -/
theorem c10_greedy_script (b0 a mid b2 : Str)
    (hb0 : ¬ "<script>".data <:+: b0) :
    extractScript (b0 ++ "<script>".data ++ a ++ "</script>".data ++ mid
        ++ "<script>".data ++ b2 ++ "</script>".data)
      = (b0.drop (b0.length - trailWs b0) ++ "<script>".data ++ a ++ "</script>".data
          ++ mid ++ "<script>".data ++ b2 ++ "</script>".data,
         b0.take (b0.length - trailWs b0)) ∧
    mid <:+: (b0.drop (b0.length - trailWs b0) ++ "<script>".data ++ a
        ++ "</script>".data ++ mid ++ "<script>".data ++ b2 ++ "</script>".data) := by
  have hW : b0 ++ "<script>".data ++ a ++ "</script>".data ++ mid
      ++ "<script>".data ++ b2 ++ "</script>".data
      = b0 ++ ("<script>".data ++ (a ++ ("</script>".data ++ (mid
          ++ ("<script>".data ++ (b2 ++ "</script>".data)))))) := by
    simp [List.append_assoc]
  have hY : b0 ++ "<script>".data ++ a ++ "</script>".data ++ mid
      ++ "<script>".data ++ b2 ++ "</script>".data
      = b0 ++ "<script>".data ++ (a ++ ("</script>".data ++ (mid
          ++ ("<script>".data ++ (b2 ++ "</script>".data))))) := by
    simp [List.append_assoc]
  have hocc := @no_early_occ_of_borderFree "<script>".data b0
    (a ++ ("</script>".data ++ (mid ++ ("<script>".data ++ (b2 ++ "</script>".data)))))
    borderFree_script hb0
  have hscan : scanScript (b0 ++ "<script>".data ++ a ++ "</script>".data ++ mid
      ++ "<script>".data ++ b2 ++ "</script>".data).length
      (b0 ++ "<script>".data ++ a ++ "</script>".data ++ mid
        ++ "<script>".data ++ b2 ++ "</script>".data) 0 = some b0.length := by
    rw [hY]
    have hs := scanScript_split b0 0
      (a ++ ("</script>".data ++ (mid ++ ("<script>".data ++ (b2 ++ "</script>".data)))))
      ((b0 ++ "<script>".data ++ (a ++ ("</script>".data ++ (mid
          ++ ("<script>".data ++ (b2 ++ "</script>".data)))))).length)
      hocc (by simp [List.length_append]; omega)
    rw [hs]
    simp
  have hsuf : "</script>".data.isSuffixOf (rstrip (b0 ++ "<script>".data ++ a
      ++ "</script>".data ++ mid ++ "<script>".data ++ b2 ++ "</script>".data)) = true := by
    rw [rstrip_close]
    exact List.isSuffixOf_iff_suffix.mpr (List.suffix_append _ _)
  have hscan2 : scanScript (rstrip (b0 ++ "<script>".data ++ a ++ "</script>".data ++ mid
      ++ "<script>".data ++ b2 ++ "</script>".data)).length
      (b0 ++ "<script>".data ++ a ++ "</script>".data ++ mid
        ++ "<script>".data ++ b2 ++ "</script>".data) 0 = some b0.length := by
    rw [rstrip_close]
    exact hscan
  constructor
  · rw [extractScript_eq_of hsuf hscan2]
    have htake : (b0 ++ "<script>".data ++ a ++ "</script>".data ++ mid
        ++ "<script>".data ++ b2 ++ "</script>".data).take b0.length = b0 := by
      rw [hW, List.take_left]
    rw [htake]
    rw [hW, List.drop_append_of_le_length (Nat.sub_le _ _),
      List.take_append_of_le_length (Nat.sub_le _ _)]
    rw [Prod.mk.injEq]
    constructor
    · simp [List.append_assoc]
    · rfl
  · exact ⟨b0.drop (b0.length - trailWs b0) ++ "<script>".data ++ a ++ "</script>".data,
      "<script>".data ++ (b2 ++ "</script>".data), by simp [List.append_assoc]⟩

/-- C10 witness: with a concrete paragraph prefix, two concrete script
blocks and a concrete paragraph between them, the captured page JS is the
whole tail from the first script tag (with the preceding newline) and the
body part is the prefix without its trailing newline. -/
theorem c10_greedy_script_witness :
    extractScript (c10Body ++ "<script>".data ++ c10A ++ "</script>".data ++ c10Mid
        ++ "<script>".data ++ c10B ++ "</script>".data)
      = (c10Body.drop (c10Body.length - trailWs c10Body) ++ "<script>".data ++ c10A
          ++ "</script>".data ++ c10Mid ++ "<script>".data ++ c10B ++ "</script>".data,
         c10Body.take (c10Body.length - trailWs c10Body)) ∧
    c10Mid <:+: (c10Body.drop (c10Body.length - trailWs c10Body) ++ "<script>".data
        ++ c10A ++ "</script>".data ++ c10Mid ++ "<script>".data ++ c10B
        ++ "</script>".data) :=
  c10_greedy_script c10Body c10A c10Mid c10B (by decide)

end Docs
